import Mathlib

/-!
Verification of the BonsaiDB job registry
(`crates/bonsaidb-local/src/jobs/manager/jobs.rs`).

The registry `Jobs<Key>` owns a `u64` identifier counter, a map from job
identifiers to type-erased one-shot result senders, a map from dedup keys
to in-flight job identifiers, and both endpoints of an unbounded
multi-producer/multi-consumer channel of boxed `Executable`s.

Modelling choices (shallow embedding):
* `HashMap`s become association lists with unique keys; `last_task_id` is a
  `Nat` kept below `2 ^ 64`, incremented with `wrapping_add` semantics.
* Payload values (the job `Output` and `Error` values moving through the
  type-erased machinery) are represented as `Nat`; a `TypeTag` stands for a
  concrete instantiation of the pair `(T, E)` of a stored
  `oneshot::Sender<Result<T, Arc<E>>>`.  The `downcast_mut::<...>().unwrap()`
  in `job_completed` succeeds exactly when the stored tag equals the tag of
  the call; a failed downcast (the panic) is modelled as `none`.
* `Arc::new` is modelled as an allocation with an identity (`allocId`)
  drawn from a counter carried in the state, so that "every waiter receives
  the same shared instance" is expressible; cloning an `Arc` keeps the
  `allocId`.
* The flume channel: `Sender::send` fails only when every `Receiver` has
  been dropped.  The registry itself permanently owns the `queue` receiver
  field, so the model tracks only the number of additional receiver clones
  handed out by `queue()`; the registry's own receiver is implicit and
  alive as long as the registry value is.
* Each `oneshot` sender/receiver pair is given an identity (`nextSenderId`
  counter) so that a delivery can be matched to the handle that owns the
  receiving end.
-/

namespace BonsaiJobs

/-- The modulus of the `u64` counter `last_task_id`. -/
def u64Mod : Nat := 2 ^ 64

/-- `pub struct Id(pub(crate) u64)` — an opaque job identifier. -/
structure Id where
  val : Nat
deriving DecidableEq, Repr

/-- A code for a concrete instantiation `(T, E)` of the generic parameters of
`create_new_task_handle::<T, E>` / `job_completed::<T, E>`; the stored sender
has type `Option<oneshot::Sender<Result<T, Arc<E>>>>`. -/
structure TypeTag where
  outTy : Nat
  errTy : Nat
deriving DecidableEq, Repr

/-- An `Arc<E>` value: the identity of the allocation produced by `Arc::new`
together with the wrapped error payload.  Cloning an `Arc` preserves
`allocId` (the clones share one allocation). -/
structure ArcErr where
  allocId : Nat
  payload : Nat
deriving DecidableEq, Repr

/-- One `Box<dyn AnySender>` entry of `result_senders`: a type-erased
`Option<oneshot::Sender<Result<T, Arc<E>>>>`.  `tag` records the erased type;
`sender` is `some sid` while the one-shot sender (identified by `sid`) has
not been taken out of the `Option`. -/
structure Waiter where
  tag : TypeTag
  sender : Option Nat
deriving DecidableEq, Repr

/-- A queued `Box<dyn Executable>`: the `ManagedJob { id, job, key, manager }`
pushed by `enqueue` (the concrete `job` and the `manager` clone carry no
information relevant to the registry state). -/
structure QueueEntry (Key : Type) where
  id : Id
  key : Option Key
  tag : TypeTag
deriving DecidableEq, Repr

/-- The message sent through a waiter's one-shot channel:
`Result<T, Arc<E>>`. -/
inductive Msg where
  | ok (v : Nat)
  | err (a : ArcErr)
deriving DecidableEq, Repr

/-- One send performed by `job_completed`: the identity of the one-shot
sender that fired and the message it carried. -/
structure Delivery where
  senderId : Nat
  msg : Msg
deriving DecidableEq, Repr

/-- The registry state `Jobs<Key>`.

`queue` holds the entries pushed by `enqueue` (in push order) that have not
been drained by the worker pool; `externalReceivers` counts the receiver
clones handed out by `queue()` that are still alive — the registry's own
`queue: Receiver<_>` field is additionally always alive while the registry
exists.  `nextSenderId` and `nextArcId` allocate identities for one-shot
channels and `Arc` allocations. -/
structure Jobs (Key : Type) where
  last_task_id : Nat
  result_senders : List (Id × List Waiter)
  keyed_jobs : List (Key × Id)
  queue : List (QueueEntry Key)
  externalReceivers : Nat
  nextSenderId : Nat
  nextArcId : Nat
deriving DecidableEq, Repr

/-- `Handle<T, E, Key> { id, manager, receiver }`: the caller-held future.
`tag` is the static type `(T, E)`; `receiverOf` identifies the one-shot
channel whose receiving end the handle owns (the `manager` clone carries no
registry-relevant state). -/
structure Handle (Key : Type) where
  id : Id
  tag : TypeTag
  receiverOf : Nat
deriving DecidableEq, Repr

/-- `impl Default for Jobs`: counter `0`, empty maps, a fresh unbounded
channel (no external receiver clones yet). -/
def Jobs.mkDefault (Key : Type) : Jobs Key :=
  { last_task_id := 0
    result_senders := []
    keyed_jobs := []
    queue := []
    externalReceivers := 0
    nextSenderId := 0
    nextArcId := 0 }

/-- `HashMap` lookup on an association list. -/
def lookupA {α β : Type} [DecidableEq α] : List (α × β) → α → Option β
  | [], _ => none
  | (k, v) :: t, a => if k = a then some v else lookupA t a

/-- `HashMap::insert` on an association list (overwrites an existing key in
place, otherwise appends). -/
def insertA {α β : Type} [DecidableEq α] : List (α × β) → α → β → List (α × β)
  | [], a, b => [(a, b)]
  | (k, v) :: t, a, b =>
      if k = a then (a, b) :: t else (k, v) :: insertA t a b

/-- `HashMap::remove` on an association list (removes the first — with
unique keys, the only — entry for the key). -/
def removeA {α β : Type} [DecidableEq α] : List (α × β) → α → List (α × β)
  | [], _ => []
  | (k, v) :: t, a => if k = a then t else (k, v) :: removeA t a

/-- `self.result_senders.entry(id).or_insert_with(Vec::default)` followed by
`senders.push(w)`: appends `w` to `id`'s waiter vector, creating a
one-element vector if `id` has no entry. -/
def pushWaiter : List (Id × List Waiter) → Id → Waiter → List (Id × List Waiter)
  | [], id, w => [(id, [w])]
  | (k, ws) :: t, id, w =>
      if k = id then (k, ws ++ [w]) :: t else (k, ws) :: pushWaiter t id w

/-- The waiter vector currently stored for `id` (empty if no entry). -/
def waitersOf {Key : Type} (s : Jobs Key) (id : Id) : List Waiter :=
  (lookupA s.result_senders id).getD []

/-- `create_new_task_handle::<T, E>(id, manager)`: allocates a fresh
one-shot channel, pushes the boxed sender (wrapped in `Some`) onto `id`'s
waiter vector, and returns a `Handle` carrying `id` and the receiver. -/
def create_new_task_handle {Key : Type} (s : Jobs Key) (tag : TypeTag)
    (id : Id) : Jobs Key × Handle Key :=
  let sid := s.nextSenderId
  ({ s with
      result_senders := pushWaiter s.result_senders id ⟨tag, some sid⟩
      nextSenderId := sid + 1 },
   { id := id, tag := tag, receiverOf := sid })

/-- `enqueue::<J>(job, key, manager)`: bumps `last_task_id` with
`wrapping_add(1)`, sends a boxed `ManagedJob` on the queue (the
`.unwrap()` panics — modelled as `none` — only if every receiver of the
channel is gone, which requires the registry's own receiver to be dead),
then registers one waiter via `create_new_task_handle`.  `tag` is
`(J::Output, J::Error)`. -/
def enqueue {Key : Type} (s : Jobs Key) (tag : TypeTag) (key : Option Key) :
    Option (Jobs Key × Handle Key) :=
  let newId : Nat := (s.last_task_id + 1) % u64Mod
  let id : Id := ⟨newId⟩
  if s.externalReceivers + 1 = 0 then
    none
  else
    let s1 : Jobs Key :=
      { s with
          last_task_id := newId
          queue := s.queue ++ [⟨id, key, tag⟩] }
    some (create_new_task_handle s1 tag id)

/-- `lookup_or_enqueue::<J>(job, manager)` for `J: Keyed<Key>`: reads
`job.key()`; if the key is mapped to an in-flight id, attaches a new waiter
to that id; otherwise enqueues a new job with `Some(key)` and records the
key→id mapping. -/
def lookup_or_enqueue {Key : Type} [DecidableEq Key] (s : Jobs Key)
    (tag : TypeTag) (key : Key) : Option (Jobs Key × Handle Key) :=
  match lookupA s.keyed_jobs key with
  | some id => some (create_new_task_handle s tag id)
  | none =>
      match enqueue s tag (some key) with
      | none => none
      | some (s1, h) =>
          some ({ s1 with keyed_jobs := insertA s1.keyed_jobs key h.id }, h)

/-- The fan-out loop of `job_completed`: for each boxed sender, downcast it
to `Option<oneshot::Sender<Result<T, Arc<E>>>>` (`none` — the panic — if the
stored tag differs from the call's tag), `take()` the sender out of the
`Option`, and if it was present send a clone of the wrapped result.  Returns
the list of sends performed. -/
def deliverList (tag : TypeTag) (msg : Msg) : List Waiter → Option (List Delivery)
  | [] => some []
  | w :: ws =>
      if w.tag = tag then
        match deliverList tag msg ws with
        | none => none
        | some ds =>
            some ((match w.sender with
                   | some sid => [⟨sid, msg⟩]
                   | none => []) ++ ds)
      else none

/-- The body of `job_completed` after the key removal
(`if let Some(senders) = self.result_senders.remove(&id) { ... }`): removes
`id`'s entire waiter vector; if it existed, wraps an error result in
`Arc::new` (`result.map_err(Arc::new)` — exactly one allocation) and fires
every waiter with a clone of the wrapped result.  Returns the new state,
the sends performed, and the number of `Arc` allocations; `none` models the
`downcast_mut(..).unwrap()` panic. -/
def jobCompletedCore {Key : Type} (s : Jobs Key) (tag : TypeTag) (id : Id)
    (result : Except Nat Nat) : Option (Jobs Key × List Delivery × Nat) :=
  match lookupA s.result_senders id with
  | none => some (s, [], 0)
  | some senders =>
      match result with
      | .ok v =>
          match deliverList tag (.ok v) senders with
          | none => none
          | some ds =>
              some ({ s with result_senders := removeA s.result_senders id }, ds, 0)
      | .error e =>
          match deliverList tag (.err ⟨s.nextArcId, e⟩) senders with
          | none => none
          | some ds =>
              some ({ s with
                        result_senders := removeA s.result_senders id
                        nextArcId := s.nextArcId + 1 }, ds, 1)

/-- `job_completed::<T, E>(id, key, result)`: first removes the key mapping
if a key was passed (`if let Some(key) = key { self.keyed_jobs.remove(key) }`),
then drains and fires the waiter vector of `id` (see `jobCompletedCore`). -/
def job_completed {Key : Type} [DecidableEq Key] (s : Jobs Key)
    (tag : TypeTag) (id : Id) (key : Option Key) (result : Except Nat Nat) :
    Option (Jobs Key × List Delivery × Nat) :=
  match key with
  | some k => jobCompletedCore { s with keyed_jobs := removeA s.keyed_jobs k } tag id result
  | none => jobCompletedCore s tag id result

/-- `queue()`: clones the consumer endpoint of the work queue; the only
registry-state effect is one more live external receiver. -/
def queueHandle {Key : Type} (s : Jobs Key) : Jobs Key :=
  { s with externalReceivers := s.externalReceivers + 1 }

/-- External code dropping one of the receiver clones obtained from
`queue()`.  The registry's own receiver field is not droppable while the
registry exists, so only the external count decreases. -/
def dropExternalReceiver {Key : Type} (s : Jobs Key) : Jobs Key :=
  { s with externalReceivers := s.externalReceivers - 1 }

/-! ### Call traces against one registry

To reason about states reachable by sequences of registry calls we record
the calls as an `Op` list and replay them with the operation definitions
above.  Each step also reports the observable events it performed (which
jobs were enqueued with which key, and which completions were delivered),
so that history-dependent invariants can be stated. -/

/-- An observable event of a registry operation: `enq id key viaLookup`
records that an `Executable` with identifier `id` and dedup key `key` was
pushed (`viaLookup` is true when the push came from the enqueue branch of
`lookup_or_enqueue`); `compl id key` records a `job_completed(id, key, _)`
call. -/
inductive Ev (Key : Type) where
  | enq (id : Id) (key : Option Key) (viaLookup : Bool)
  | compl (id : Id) (key : Option Key)
deriving DecidableEq, Repr

/-- One public registry call. -/
inductive Op (Key : Type) where
  | enqueueOp (tag : TypeTag) (key : Option Key)
  | createHandleOp (tag : TypeTag) (id : Id)
  | lookupOrEnqueueOp (tag : TypeTag) (key : Key)
  | completedOp (tag : TypeTag) (id : Id) (key : Option Key) (r : Except Nat Nat)
  | queueCloneOp
  | dropReceiverOp
deriving Repr

/-- Apply one call to the registry, returning the new state and the events
performed; `none` models a panic inside the call. -/
def stepEv {Key : Type} [DecidableEq Key] (s : Jobs Key) :
    Op Key → Option (Jobs Key × List (Ev Key))
  | .enqueueOp tag key =>
      (enqueue s tag key).map fun p => (p.1, [.enq p.2.id key false])
  | .createHandleOp tag id => some ((create_new_task_handle s tag id).1, [])
  | .lookupOrEnqueueOp tag k =>
      match lookupA s.keyed_jobs k with
      | some _ => (lookup_or_enqueue s tag k).map fun p => (p.1, [])
      | none =>
          (lookup_or_enqueue s tag k).map fun p => (p.1, [.enq p.2.id (some k) true])
  | .completedOp tag id key r =>
      (job_completed s tag id key r).map fun o => (o.1, [.compl id key])
  | .queueCloneOp => some (queueHandle s, [])
  | .dropReceiverOp => some (dropExternalReceiver s, [])

/-- Replay a list of calls, accumulating the event history. -/
def runEv {Key : Type} [DecidableEq Key] (s : Jobs Key) (h : List (Ev Key)) :
    List (Op Key) → Option (Jobs Key × List (Ev Key))
  | [] => some (s, h)
  | op :: ops =>
      match stepEv s op with
      | none => none
      | some (s2, evs) => runEv s2 (h ++ evs) ops

/-- Is this event an enqueue event? -/
def isEnqEv {Key : Type} : Ev Key → Bool
  | .enq _ _ _ => true
  | .compl _ _ => false

/-- Is this event an enqueue event for the identifier `id`? -/
def isEnqFor {Key : Type} (id : Id) : Ev Key → Bool
  | .enq id2 _ _ => decide (id2 = id)
  | .compl _ _ => false

/-- Is this event a completion event for the identifier `id`? -/
def isComplFor {Key : Type} (id : Id) : Ev Key → Bool
  | .enq _ _ _ => false
  | .compl id2 _ => decide (id2 = id)

/-- The number of jobs enqueued during a history. -/
def countEnq {Key : Type} (h : List (Ev Key)) : Nat := h.countP isEnqEv

/-- Well-formedness of one event `e` arriving after the events `seen`.  It
encodes the calling contract of the worker pool and of the key-bearing
callers: a completion reports the id and the key recorded in the
`Executable` that was enqueued for that id, and is reported at most once
per id; a direct `enqueue` call (not via `lookup_or_enqueue`) passes no
dedup key. -/
def evOk {Key : Type} (seen : List (Ev Key)) : Ev Key → Prop
  | .compl id key =>
      (∃ b, Ev.enq id key b ∈ seen) ∧ ∀ e ∈ seen, isComplFor id e = false
  | .enq _ key b => b = false → key = none

instance {Key : Type} [DecidableEq Key] (seen : List (Ev Key)) (e : Ev Key) :
    Decidable (evOk seen e) := by
  cases e <;> simp only [evOk] <;> infer_instance

/-- Well-formedness of a history suffix given the events already seen. -/
def wfFrom {Key : Type} (seen : List (Ev Key)) : List (Ev Key) → Prop
  | [] => True
  | e :: rest => evOk seen e ∧ wfFrom (seen ++ [e]) rest

instance wfFromDecidable {Key : Type} [DecidableEq Key] :
    (seen l : List (Ev Key)) → Decidable (wfFrom seen l)
  | _, [] => .isTrue trivial
  | seen, e :: rest =>
      @instDecidableAnd _ _ _ (wfFromDecidable (seen ++ [e]) rest)

/-- Well-formedness of a whole event history. -/
def wfHist {Key : Type} (h : List (Ev Key)) : Prop := wfFrom [] h

instance {Key : Type} [DecidableEq Key] (h : List (Ev Key)) :
    Decidable (wfHist h) := by
  unfold wfHist
  infer_instance

/-- The history-indexed invariant tying a registry state to the events of
the trace that produced it: the counter equals the number of enqueued
jobs; every enqueued id lies in `1 ..= counter`; no id is enqueued twice;
every completion has a matching enqueue; direct (non-lookup) enqueues
carry no key; the key-map keys are unique; and — the dedup-mapping
invariant itself — a key maps to an id exactly when that id was enqueued
via `lookup_or_enqueue` with that key and has not been completed. -/
def histInv {Key : Type} [DecidableEq Key] (s : Jobs Key)
    (h : List (Ev Key)) : Prop :=
  s.last_task_id = countEnq h ∧
  (∀ id key b, Ev.enq id key b ∈ h → 1 ≤ id.val ∧ id.val ≤ countEnq h) ∧
  (∀ id : Id, h.countP (isEnqFor id) ≤ 1) ∧
  (∀ id key, Ev.compl id key ∈ h → ∃ key2 b, Ev.enq id key2 b ∈ h) ∧
  (∀ id key, Ev.enq id key false ∈ h → key = none) ∧
  (s.keyed_jobs.map Prod.fst).Nodup ∧
  (∀ k id, lookupA s.keyed_jobs k = some id ↔
      (Ev.enq id (some k) true ∈ h ∧ ∀ e ∈ h, isComplFor id e = false))

/-- The two-call trace refuting the unrestricted dedup-mapping claim: a
`lookup_or_enqueue` with key `7` (enqueueing job 1), followed by a
`job_completed` for the unrelated id 9 that nevertheless passes key `7`. -/
def cex5ops : List (Op Nat) :=
  [Op.lookupOrEnqueueOp ⟨0, 0⟩ 7,
   Op.completedOp ⟨0, 0⟩ ⟨9⟩ (some 7) (Except.ok 0)]

/-! ### The pure-enqueue trace (identifier allocation) -/

/-- The registry after `n` keyless `enqueue` calls from the default state. -/
def iterEnq : Nat → Jobs Nat
  | 0 => Jobs.mkDefault Nat
  | n + 1 => ((enqueue (iterEnq n) ⟨0, 0⟩ none).map Prod.fst).getD (iterEnq n)

/-- The `JobId` returned by call number `n + 1` of the pure-enqueue trace. -/
def enqIdAfter (n : Nat) : Option Id :=
  (enqueue (iterEnq n) ⟨0, 0⟩ none).map fun p => p.2.id

/-! ### Handle resolution

Modelled from the spec: the `Handle` type's resolve operation and the
one-shot channel receiver live in `jobs/task.rs`, which is not among the
provided sources; §4.5 of the specification fixes their contract: resolving
suspends until the registry delivers `Ok(output)` or `Err(shared_error)`,
or until the sending side is destroyed without a send, which yields a
distinct "execution aborted" failure. -/

/-- Modelled from the spec: the state of one `oneshot` channel as seen by
the receiving `Handle` (`jobs/task.rs` is not under the provided sources).
The sender either has not fired yet, has fired with a `Result<T, Arc<E>>`
message, or was dropped without firing. -/
inductive OneshotState where
  | pending
  | sent (m : Msg)
  | senderDropped
deriving DecidableEq, Repr

/-- Modelled from the spec: the outcome of resolving a `Handle`
(`jobs/task.rs` is not under the provided sources): still suspended, the
job's own `Ok` output, the job's own shared error, or the distinct
"execution aborted" failure raised when the sender disappeared without a
result. -/
inductive ResolveOutcome where
  | stillPending
  | okOut (v : Nat)
  | errShared (a : ArcErr)
  | aborted
deriving DecidableEq, Repr

/-- Modelled from the spec: resolving a `Handle` against the state of its
one-shot channel (`jobs/task.rs` is not under the provided sources). -/
def resolveHandle : OneshotState → ResolveOutcome
  | .pending => .stillPending
  | .sent (.ok v) => .okOut v
  | .sent (.err a) => .errShared a
  | .senderDropped => .aborted

/-! ### Concrete states for counterexamples -/

/-- State after `enqueue` of one keyless job (id 1) from the default
registry. -/
def c3sA : Jobs Nat :=
  ((enqueue (Jobs.mkDefault Nat) ⟨0, 0⟩ none).map Prod.fst).getD (Jobs.mkDefault Nat)

/-- State after additionally completing job 1 — its waiter list is drained
and removed. -/
def c3sB : Jobs Nat :=
  ((job_completed c3sA ⟨0, 0⟩ ⟨1⟩ none (Except.ok 5)).map fun o => o.1).getD c3sA

/-- State after additionally calling `lookup_or_enqueue` with key `7`,
which enqueues job 2 and maps key `7` to id 2. -/
def c3sC : Jobs Nat :=
  ((lookup_or_enqueue c3sB ⟨0, 0⟩ 7).map Prod.fst).getD c3sB

/-! ### Association-list lemmas (the `HashMap` algebra) -/

theorem lookupA_insertA_self {α β : Type} [DecidableEq α] (l : List (α × β))
    (a : α) (b : β) : lookupA (insertA l a b) a = some b := by
  induction l with
  | nil => simp [insertA, lookupA]
  | cons hd t ih =>
      obtain ⟨k, v⟩ := hd
      by_cases hk : k = a
      · simp [insertA, hk, lookupA]
      · simp [insertA, hk, lookupA, ih]

theorem lookupA_insertA_ne {α β : Type} [DecidableEq α] (l : List (α × β))
    (a a2 : α) (b : β) (h : a2 ≠ a) :
    lookupA (insertA l a b) a2 = lookupA l a2 := by
  have hne : ¬ a = a2 := fun hh => h hh.symm
  induction l with
  | nil => simp [insertA, lookupA, hne]
  | cons hd t ih =>
      obtain ⟨k, v⟩ := hd
      by_cases hk : k = a
      · subst hk
        simp [insertA, lookupA, hne]
      · simp [insertA, hk, lookupA, ih]

theorem lookupA_removeA_ne {α β : Type} [DecidableEq α] (l : List (α × β))
    (a a2 : α) (h : a2 ≠ a) :
    lookupA (removeA l a) a2 = lookupA l a2 := by
  induction l with
  | nil => simp [removeA]
  | cons hd t ih =>
      obtain ⟨k, v⟩ := hd
      by_cases hk : k = a
      · subst hk
        have hne : ¬ k = a2 := fun hh => h hh.symm
        simp [removeA, lookupA, hne]
      · simp [removeA, hk, lookupA, ih]

theorem lookupA_eq_none_of_not_mem_keys {α β : Type} [DecidableEq α]
    (l : List (α × β)) (a : α) (h : a ∉ l.map Prod.fst) :
    lookupA l a = none := by
  induction l with
  | nil => simp [lookupA]
  | cons hd t ih =>
      obtain ⟨k, v⟩ := hd
      simp only [List.map_cons, List.mem_cons] at h
      push_neg at h
      have hne : ¬ k = a := fun hh => h.1 hh.symm
      simp [lookupA, hne, ih h.2]

theorem lookupA_removeA_self {α β : Type} [DecidableEq α] (l : List (α × β))
    (a : α) (h : (l.map Prod.fst).Nodup) :
    lookupA (removeA l a) a = none := by
  induction l with
  | nil => simp [removeA, lookupA]
  | cons hd t ih =>
      obtain ⟨k, v⟩ := hd
      simp only [List.map_cons, List.nodup_cons] at h
      by_cases hk : k = a
      · subst hk
        simpa [removeA] using lookupA_eq_none_of_not_mem_keys t k h.1
      · simp [removeA, hk, lookupA, ih h.2]

theorem removeA_of_lookupA_none {α β : Type} [DecidableEq α]
    (l : List (α × β)) (a : α) (h : lookupA l a = none) :
    removeA l a = l := by
  induction l with
  | nil => simp [removeA]
  | cons hd t ih =>
      obtain ⟨k, v⟩ := hd
      by_cases hk : k = a
      · simp [lookupA, hk] at h
      · simp only [lookupA, if_neg hk] at h
        simp [removeA, hk, ih h]

theorem keys_insertA_subset {α β : Type} [DecidableEq α] (l : List (α × β))
    (a : α) (b : β) (x : α) (hx : x ∈ (insertA l a b).map Prod.fst) :
    x ∈ l.map Prod.fst ∨ x = a := by
  induction l with
  | nil =>
      simp only [insertA, List.map_cons, List.map_nil, List.mem_cons,
        List.not_mem_nil, or_false] at hx
      exact Or.inr hx
  | cons hd t ih =>
      obtain ⟨k, v⟩ := hd
      by_cases hk : k = a
      · rw [insertA, if_pos hk] at hx
        simp only [List.map_cons, List.mem_cons] at hx ⊢
        tauto
      · rw [insertA, if_neg hk] at hx
        simp only [List.map_cons, List.mem_cons] at hx ⊢
        rcases hx with hx | hx
        · exact Or.inl (Or.inl hx)
        · rcases ih hx with hh | hh
          · exact Or.inl (Or.inr hh)
          · exact Or.inr hh

theorem nodup_keys_insertA {α β : Type} [DecidableEq α] (l : List (α × β))
    (a : α) (b : β) (h : (l.map Prod.fst).Nodup) :
    ((insertA l a b).map Prod.fst).Nodup := by
  induction l with
  | nil => simp [insertA]
  | cons hd t ih =>
      obtain ⟨k, v⟩ := hd
      simp only [List.map_cons, List.nodup_cons] at h
      by_cases hk : k = a
      · rw [insertA, if_pos hk]
        simp only [List.map_cons, List.nodup_cons]
        subst hk
        exact ⟨h.1, h.2⟩
      · rw [insertA, if_neg hk]
        simp only [List.map_cons, List.nodup_cons]
        refine ⟨fun hmem => ?_, ih h.2⟩
        rcases keys_insertA_subset t a b k hmem with hh | hh
        · exact h.1 hh
        · exact hk hh

theorem keys_removeA_subset {α β : Type} [DecidableEq α] (l : List (α × β))
    (a : α) (x : α) (hx : x ∈ (removeA l a).map Prod.fst) :
    x ∈ l.map Prod.fst := by
  induction l with
  | nil => simp [removeA] at hx
  | cons hd t ih =>
      obtain ⟨k, v⟩ := hd
      by_cases hk : k = a
      · rw [removeA, if_pos hk] at hx
        simp only [List.map_cons, List.mem_cons]
        exact Or.inr hx
      · rw [removeA, if_neg hk] at hx
        simp only [List.map_cons, List.mem_cons] at hx ⊢
        tauto

theorem nodup_keys_removeA {α β : Type} [DecidableEq α] (l : List (α × β))
    (a : α) (h : (l.map Prod.fst).Nodup) :
    ((removeA l a).map Prod.fst).Nodup := by
  induction l with
  | nil => simp [removeA]
  | cons hd t ih =>
      obtain ⟨k, v⟩ := hd
      simp only [List.map_cons, List.nodup_cons] at h
      by_cases hk : k = a
      · rw [removeA, if_pos hk]
        exact h.2
      · rw [removeA, if_neg hk]
        simp only [List.map_cons, List.nodup_cons]
        exact ⟨fun hmem => h.1 (keys_removeA_subset t a k hmem), ih h.2⟩

/-! ### Lemmas about waiter-vector updates -/

theorem lookupA_pushWaiter_self (l : List (Id × List Waiter)) (id : Id)
    (w : Waiter) :
    lookupA (pushWaiter l id w) id = some ((lookupA l id).getD [] ++ [w]) := by
  induction l with
  | nil => simp [pushWaiter, lookupA]
  | cons hd t ih =>
      obtain ⟨k, ws⟩ := hd
      by_cases hk : k = id
      · simp [pushWaiter, hk, lookupA]
      · simp [pushWaiter, hk, lookupA, ih]

theorem lookupA_pushWaiter_ne (l : List (Id × List Waiter)) (id id2 : Id)
    (w : Waiter) (h : id2 ≠ id) :
    lookupA (pushWaiter l id w) id2 = lookupA l id2 := by
  have hne : ¬ id = id2 := fun hh => h hh.symm
  induction l with
  | nil => simp [pushWaiter, lookupA, hne]
  | cons hd t ih =>
      obtain ⟨k, ws⟩ := hd
      by_cases hk : k = id
      · subst hk
        simp [pushWaiter, lookupA, hne]
      · simp [pushWaiter, hk, lookupA, ih]

/-! ### Unfolding lemmas for the registry operations -/

/-- `enqueue` never hits the `.unwrap()` panic branch and its effect is the
explicit state/handle pair below. -/
theorem enqueue_eq {Key : Type} (s : Jobs Key) (tag : TypeTag)
    (key : Option Key) :
    enqueue s tag key =
      some
        ({ s with
            last_task_id := (s.last_task_id + 1) % u64Mod
            queue := s.queue ++ [⟨⟨(s.last_task_id + 1) % u64Mod⟩, key, tag⟩]
            result_senders :=
              pushWaiter s.result_senders ⟨(s.last_task_id + 1) % u64Mod⟩
                ⟨tag, some s.nextSenderId⟩
            nextSenderId := s.nextSenderId + 1 },
         ⟨⟨(s.last_task_id + 1) % u64Mod⟩, tag, s.nextSenderId⟩) := by
  simp [enqueue, create_new_task_handle]

/-- The fan-out loop succeeds when every stored tag matches the call's tag,
and then performs exactly the sends of the still-present senders, each
carrying the same message. -/
theorem deliverList_eq (tag : TypeTag) (msg : Msg) (ws : List Waiter)
    (h : ∀ w ∈ ws, w.tag = tag) :
    deliverList tag msg ws =
      some (ws.filterMap fun w => w.sender.map fun sid => ⟨sid, msg⟩) := by
  induction ws with
  | nil => simp [deliverList]
  | cons w t ih =>
      have hw : w.tag = tag := h w (List.mem_cons_self w t)
      have ht : ∀ x ∈ t, x.tag = tag := fun x hx => h x (List.mem_cons_of_mem w hx)
      rw [deliverList, if_pos hw, ih ht]
      cases hs : w.sender <;> simp [List.filterMap_cons, hs]

/-- Every message sent by the fan-out loop is the single wrapped result. -/
theorem msg_of_mem_fanOut (msg : Msg) (ws : List Waiter) (d : Delivery)
    (hd : d ∈ ws.filterMap fun w => w.sender.map fun sid => (⟨sid, msg⟩ : Delivery)) :
    d.msg = msg := by
  rw [List.mem_filterMap] at hd
  obtain ⟨w, -, hw⟩ := hd
  cases hs : w.sender with
  | none => rw [hs] at hw; exact absurd hw (by simp)
  | some sid =>
      rw [hs] at hw
      simp only [Option.map_some'] at hw
      cases hw
      rfl

/-- When no sender was taken yet, the fan-out loop fires once per
registered waiter. -/
theorem length_fanOut (msg : Msg) (ws : List Waiter)
    (hs : ∀ w ∈ ws, w.sender.isSome = true) :
    (ws.filterMap fun w => w.sender.map fun sid => (⟨sid, msg⟩ : Delivery)).length
      = ws.length := by
  induction ws with
  | nil => rfl
  | cons w t ih =>
      have hw : w.sender.isSome = true := hs w (List.mem_cons_self w t)
      obtain ⟨sid, hsid⟩ := Option.isSome_iff_exists.mp hw
      rw [List.filterMap_cons, hsid]
      simp only [Option.map_some']
      rw [List.length_cons, ih fun x hx => hs x (List.mem_cons_of_mem w hx)]
      rfl

/-- The fan-out performed by `jobCompletedCore` on an `Ok` result, when the
waiter entry exists and every stored tag matches the call's tag. -/
theorem jobCompletedCore_ok {Key : Type} (s : Jobs Key) (tag : TypeTag)
    (id : Id) (v : Nat) (ws : List Waiter)
    (hw : lookupA s.result_senders id = some ws)
    (ht : ∀ w ∈ ws, w.tag = tag) :
    jobCompletedCore s tag id (Except.ok v) =
      some ({ s with result_senders := removeA s.result_senders id },
        ws.filterMap fun w => w.sender.map fun sid => ⟨sid, Msg.ok v⟩, 0) := by
  simp only [jobCompletedCore, hw, deliverList_eq tag (.ok v) ws ht]

/-- The fan-out performed by `jobCompletedCore` on an `Err` result: one
`Arc` allocation, and every waiter is sent that same shared instance. -/
theorem jobCompletedCore_err {Key : Type} (s : Jobs Key) (tag : TypeTag)
    (id : Id) (e : Nat) (ws : List Waiter)
    (hw : lookupA s.result_senders id = some ws)
    (ht : ∀ w ∈ ws, w.tag = tag) :
    jobCompletedCore s tag id (Except.error e) =
      some ({ s with
                result_senders := removeA s.result_senders id
                nextArcId := s.nextArcId + 1 },
        ws.filterMap fun w => w.sender.map fun sid => ⟨sid, Msg.err ⟨s.nextArcId, e⟩⟩,
        1) := by
  simp only [jobCompletedCore, hw, deliverList_eq tag (.err ⟨s.nextArcId, e⟩) ws ht]

/-- `jobCompletedCore` for an id with no waiter entry is the identity
(no sends, no allocations). -/
theorem jobCompletedCore_drained {Key : Type} (s : Jobs Key) (tag : TypeTag)
    (id : Id) (r : Except Nat Nat)
    (hw : lookupA s.result_senders id = none) :
    jobCompletedCore s tag id r = some (s, [], 0) := by
  simp only [jobCompletedCore, hw]

/-- `job_completed` with a key argument only removes that key before the
fan-out. -/
theorem job_completed_some_key {Key : Type} [DecidableEq Key] (s : Jobs Key)
    (tag : TypeTag) (id : Id) (k : Key) (r : Except Nat Nat) :
    job_completed s tag id (some k) r =
      jobCompletedCore { s with keyed_jobs := removeA s.keyed_jobs k } tag id r := rfl

/-- `job_completed` without a key argument goes straight to the fan-out. -/
theorem job_completed_none_key {Key : Type} [DecidableEq Key] (s : Jobs Key)
    (tag : TypeTag) (id : Id) (r : Except Nat Nat) :
    job_completed s tag id none r = jobCompletedCore s tag id r := rfl

/-! ### Claim theorems -/

/-- Claim C9: `enqueue` can never fail or panic on the queue push while the
registry value exists: the channel still has the registry's own `queue`
receiver alive, so `send` on the unbounded flume channel always succeeds and
the `.unwrap()` after it is unreachable (`enqueue` never returns the panic
outcome, from any registry state). -/
theorem claim9_enqueue_send_never_panics {Key : Type} (s : Jobs Key)
    (tag : TypeTag) (key : Option Key) :
    (enqueue s tag key).isSome = true := by
  rw [enqueue_eq]
  rfl

/-- Claim C10: `create_new_task_handle(id, manager)` appends exactly one new
waiter at the end of `id`'s waiter list (creating a one-element list if none
existed) and changes nothing else in the registry — the identifier counter,
the key-to-id map, the waiter lists of every other id, all previously
registered waiters for `id`, and the queue are unchanged — and the returned
handle carries exactly the id passed in. -/
theorem claim10_create_new_task_handle_frame {Key : Type} (s : Jobs Key)
    (tag : TypeTag) (id : Id) :
    (create_new_task_handle s tag id).2.id = id ∧
    waitersOf (create_new_task_handle s tag id).1 id =
      waitersOf s id ++ [⟨tag, some s.nextSenderId⟩] ∧
    (∀ id2 : Id, id2 ≠ id →
      waitersOf (create_new_task_handle s tag id).1 id2 = waitersOf s id2) ∧
    (create_new_task_handle s tag id).1.last_task_id = s.last_task_id ∧
    (create_new_task_handle s tag id).1.keyed_jobs = s.keyed_jobs ∧
    (create_new_task_handle s tag id).1.queue = s.queue ∧
    (create_new_task_handle s tag id).1.externalReceivers = s.externalReceivers := by
  refine ⟨rfl, ?_, ?_, rfl, rfl, rfl, rfl⟩
  · unfold waitersOf create_new_task_handle
    rw [lookupA_pushWaiter_self]
    rfl
  · intro id2 hne
    unfold waitersOf create_new_task_handle
    rw [lookupA_pushWaiter_ne _ _ _ _ hne]

/-- Claim C10 witness: instantiating the frame theorem at a concrete state. -/
theorem claim10_witness :
    waitersOf (create_new_task_handle (Jobs.mkDefault Nat) ⟨0, 0⟩ ⟨1⟩).1 ⟨2⟩ =
      waitersOf (Jobs.mkDefault Nat) ⟨2⟩ ∧
    (create_new_task_handle (Jobs.mkDefault Nat) ⟨0, 0⟩ ⟨1⟩).2.id = ⟨1⟩ :=
  ⟨(claim10_create_new_task_handle_frame (Jobs.mkDefault Nat) ⟨0, 0⟩ ⟨1⟩).2.2.1
      ⟨2⟩ (by decide),
   (claim10_create_new_task_handle_frame (Jobs.mkDefault Nat) ⟨0, 0⟩ ⟨1⟩).1⟩

/-- Characterization of the miss branch of `lookup_or_enqueue`: when the key
is not in flight, the call enqueues a fresh job with that key and records
the key-to-id mapping. -/
theorem lookup_or_enqueue_miss {Key : Type} [DecidableEq Key] (s : Jobs Key)
    (tag : TypeTag) (k : Key) (hk : lookupA s.keyed_jobs k = none) :
    ∃ s1 h1,
      lookup_or_enqueue s tag k = some (s1, h1) ∧
      h1.id = ⟨(s.last_task_id + 1) % u64Mod⟩ ∧
      h1.tag = tag ∧
      h1.receiverOf = s.nextSenderId ∧
      s1.last_task_id = (s.last_task_id + 1) % u64Mod ∧
      s1.result_senders = pushWaiter s.result_senders h1.id ⟨tag, some s.nextSenderId⟩ ∧
      s1.keyed_jobs = insertA s.keyed_jobs k h1.id ∧
      s1.queue = s.queue ++ [⟨h1.id, some k, tag⟩] ∧
      s1.externalReceivers = s.externalReceivers ∧
      s1.nextSenderId = s.nextSenderId + 1 ∧
      s1.nextArcId = s.nextArcId := by
  refine
    ⟨{ s with
        last_task_id := (s.last_task_id + 1) % u64Mod
        result_senders :=
          pushWaiter s.result_senders ⟨(s.last_task_id + 1) % u64Mod⟩
            ⟨tag, some s.nextSenderId⟩
        keyed_jobs := insertA s.keyed_jobs k ⟨(s.last_task_id + 1) % u64Mod⟩
        queue := s.queue ++ [⟨⟨(s.last_task_id + 1) % u64Mod⟩, some k, tag⟩]
        nextSenderId := s.nextSenderId + 1 },
     ⟨⟨(s.last_task_id + 1) % u64Mod⟩, tag, s.nextSenderId⟩,
     ?_, rfl, rfl, rfl, rfl, rfl, rfl, rfl, rfl, rfl, rfl⟩
  rw [lookup_or_enqueue, hk, enqueue_eq]

/-- Characterization of the hit branch of `lookup_or_enqueue`: when the key
is already mapped to an in-flight id, the call only attaches a new waiter to
that id; in particular it pushes nothing onto the queue. -/
theorem lookup_or_enqueue_hit {Key : Type} [DecidableEq Key] (s : Jobs Key)
    (tag : TypeTag) (k : Key) (id : Id)
    (hk : lookupA s.keyed_jobs k = some id) :
    ∃ s1 h1,
      lookup_or_enqueue s tag k = some (s1, h1) ∧
      h1.id = id ∧
      h1.tag = tag ∧
      h1.receiverOf = s.nextSenderId ∧
      s1.last_task_id = s.last_task_id ∧
      s1.result_senders = pushWaiter s.result_senders id ⟨tag, some s.nextSenderId⟩ ∧
      s1.keyed_jobs = s.keyed_jobs ∧
      s1.queue = s.queue ∧
      s1.externalReceivers = s.externalReceivers ∧
      s1.nextSenderId = s.nextSenderId + 1 ∧
      s1.nextArcId = s.nextArcId := by
  refine
    ⟨{ s with
        result_senders := pushWaiter s.result_senders id ⟨tag, some s.nextSenderId⟩
        nextSenderId := s.nextSenderId + 1 },
     ⟨id, tag, s.nextSenderId⟩,
     ?_, rfl, rfl, rfl, rfl, rfl, rfl, rfl, rfl, rfl, rfl⟩
  rw [lookup_or_enqueue, hk]
  rfl

/-- Claim C1: single-flight deduplication.  From any registry state in which
key `k` is not in flight, two consecutive `lookup_or_enqueue` calls with
jobs having the key `k` (with `job_completed` not called in between) return
handles carrying the same `JobId`; the first call pushes exactly one
`Executable` for that key onto the work queue and the second call pushes
nothing. -/
theorem claim1_single_flight {Key : Type} [DecidableEq Key] (s : Jobs Key)
    (tag1 tag2 : TypeTag) (k : Key)
    (hk : lookupA s.keyed_jobs k = none) :
    ∃ s1 h1 s2 h2,
      lookup_or_enqueue s tag1 k = some (s1, h1) ∧
      lookup_or_enqueue s1 tag2 k = some (s2, h2) ∧
      h1.id = h2.id ∧
      s1.queue = s.queue ++ [⟨h1.id, some k, tag1⟩] ∧
      s2.queue = s1.queue := by
  obtain ⟨s1, h1, hcall1, hid1, -, -, -, -, hkeyed1, hqueue1, -, -, -⟩ :=
    lookup_or_enqueue_miss s tag1 k hk
  have hlook : lookupA s1.keyed_jobs k = some h1.id := by
    rw [hkeyed1]
    exact lookupA_insertA_self _ _ _
  obtain ⟨s2, h2, hcall2, hid2, -, -, -, -, -, hqueue2, -, -, -⟩ :=
    lookup_or_enqueue_hit s1 tag2 k h1.id hlook
  exact ⟨s1, h1, s2, h2, hcall1, hcall2, hid2.symm, hqueue1, hqueue2⟩

/-- Claim C1 witness: the single-flight theorem applied at the empty
registry with key `0`. -/
theorem claim1_witness :
    lookupA (Jobs.mkDefault Nat).keyed_jobs 0 = none ∧
    ∃ s1 h1 s2 h2,
      lookup_or_enqueue (Jobs.mkDefault Nat) ⟨0, 0⟩ 0 = some (s1, h1) ∧
      lookup_or_enqueue s1 ⟨0, 0⟩ 0 = some (s2, h2) ∧
      h1.id = h2.id ∧
      s1.queue = (Jobs.mkDefault Nat).queue ++ [⟨h1.id, some 0, ⟨0, 0⟩⟩] ∧
      s2.queue = s1.queue :=
  ⟨rfl, claim1_single_flight (Jobs.mkDefault Nat) ⟨0, 0⟩ ⟨0, 0⟩ 0 rfl⟩

/-- The fan-out behaviour of `jobCompletedCore` when the waiter entry for
`id` exists, all stored tags match and no sender was taken yet. -/
theorem jobCompletedCore_fan_out {Key : Type} (s : Jobs Key) (tag : TypeTag)
    (id : Id) (r : Except Nat Nat) (ws : List Waiter)
    (hw : lookupA s.result_senders id = some ws)
    (ht : ∀ w ∈ ws, w.tag = tag)
    (hs : ∀ w ∈ ws, w.sender.isSome = true)
    (hnodup : (s.result_senders.map Prod.fst).Nodup) :
    ∃ s2 ds n,
      jobCompletedCore s tag id r = some (s2, ds, n) ∧
      lookupA s2.result_senders id = none ∧
      ds.length = ws.length ∧
      s2.keyed_jobs = s.keyed_jobs ∧
      (∀ v, r = Except.ok v → n = 0 ∧ ∀ d ∈ ds, d.msg = Msg.ok v) ∧
      (∀ e, r = Except.error e →
        n = 1 ∧ ∃ a : ArcErr, a.payload = e ∧ ∀ d ∈ ds, d.msg = Msg.err a) := by
  cases r with
  | ok v =>
      refine ⟨_, _, _, jobCompletedCore_ok s tag id v ws hw ht, ?_, ?_, rfl, ?_, ?_⟩
      · exact lookupA_removeA_self _ _ hnodup
      · exact length_fanOut (Msg.ok v) ws hs
      · intro v2 hv
        cases hv
        exact ⟨rfl, fun d hd => msg_of_mem_fanOut _ ws d hd⟩
      · intro e he
        cases he
  | error e =>
      refine ⟨_, _, _, jobCompletedCore_err s tag id e ws hw ht, ?_, ?_, rfl, ?_, ?_⟩
      · exact lookupA_removeA_self _ _ hnodup
      · exact length_fanOut (Msg.err ⟨s.nextArcId, e⟩) ws hs
      · intro v hv
        cases hv
      · intro e2 he
        cases he
        exact ⟨rfl, ⟨s.nextArcId, e⟩, rfl, fun d hd => msg_of_mem_fanOut _ ws d hd⟩

/-- Claim C2: completion fan-out.  For an id with registered waiters (all
registered with the call's result type and not yet fired),
`job_completed(id, key, result)` removes the entire waiter list for `id`
and delivers one message per registered waiter: on `Ok(v)` every waiter
receives its own clone of `v`, equal in value, with no error-wrapping; on
`Err(e)`, `e` is wrapped in a reference-counted container exactly once and
every waiter receives that same shared instance. -/
theorem claim2_completion_fan_out {Key : Type} [DecidableEq Key]
    (s : Jobs Key) (tag : TypeTag) (id : Id) (key : Option Key)
    (r : Except Nat Nat) (ws : List Waiter)
    (hw : lookupA s.result_senders id = some ws)
    (ht : ∀ w ∈ ws, w.tag = tag)
    (hs : ∀ w ∈ ws, w.sender.isSome = true)
    (hnodup : (s.result_senders.map Prod.fst).Nodup) :
    ∃ s2 ds n,
      job_completed s tag id key r = some (s2, ds, n) ∧
      lookupA s2.result_senders id = none ∧
      ds.length = ws.length ∧
      (∀ v, r = Except.ok v → n = 0 ∧ ∀ d ∈ ds, d.msg = Msg.ok v) ∧
      (∀ e, r = Except.error e →
        n = 1 ∧ ∃ a : ArcErr, a.payload = e ∧ ∀ d ∈ ds, d.msg = Msg.err a) := by
  cases key with
  | none =>
      obtain ⟨s2, ds, n, heq, h1, h2, -, h4, h5⟩ :=
        jobCompletedCore_fan_out s tag id r ws hw ht hs hnodup
      exact ⟨s2, ds, n, by rw [job_completed_none_key]; exact heq, h1, h2, h4, h5⟩
  | some k =>
      obtain ⟨s2, ds, n, heq, h1, h2, -, h4, h5⟩ :=
        jobCompletedCore_fan_out { s with keyed_jobs := removeA s.keyed_jobs k }
          tag id r ws hw ht hs hnodup
      exact ⟨s2, ds, n, by rw [job_completed_some_key]; exact heq, h1, h2, h4, h5⟩

/-- Claim C2 witness: completing id 1 with two registered waiters and
result `Err(7)` from a concrete state. -/
theorem claim2_witness :
    ∃ s2 ds n,
      job_completed
        ({ last_task_id := 1
           result_senders := [(⟨1⟩, [⟨⟨0, 0⟩, some 0⟩, ⟨⟨0, 0⟩, some 1⟩])]
           keyed_jobs := []
           queue := []
           externalReceivers := 0
           nextSenderId := 2
           nextArcId := 0 } : Jobs Nat) ⟨0, 0⟩ ⟨1⟩ none (Except.error 7)
        = some (s2, ds, n) ∧
      lookupA s2.result_senders ⟨1⟩ = none ∧
      ds.length = [(⟨⟨0, 0⟩, some 0⟩ : Waiter), ⟨⟨0, 0⟩, some 1⟩].length ∧
      (∀ v, (Except.error 7 : Except Nat Nat) = Except.ok v →
        n = 0 ∧ ∀ d ∈ ds, d.msg = Msg.ok v) ∧
      (∀ e, (Except.error 7 : Except Nat Nat) = Except.error e →
        n = 1 ∧ ∃ a : ArcErr, a.payload = e ∧ ∀ d ∈ ds, d.msg = Msg.err a) :=
  claim2_completion_fan_out _ ⟨0, 0⟩ ⟨1⟩ none (Except.error 7)
    [⟨⟨0, 0⟩, some 0⟩, ⟨⟨0, 0⟩, some 1⟩] rfl (by decide) (by decide) (by decide)

/-- Claim C3 counterexample: in the concrete reachable state `c3sC` —
obtained by enqueueing job 1, completing it (which drains its waiter
list), then lookup-enqueueing key `7` as job 2 — a second
`job_completed(1, Some(7), Ok(9))` is not a no-op: it removes the live
mapping `7 ↦ 2` from the key-to-id map even though job 1's waiter list
was already drained. -/
theorem claim3_counterexample :
    lookupA c3sC.result_senders ⟨1⟩ = none ∧
    c3sC.keyed_jobs = [(7, ⟨2⟩)] ∧
    ((job_completed c3sC ⟨0, 0⟩ ⟨1⟩ (some 7) (Except.ok 9)).map
        fun o => o.1.keyed_jobs) = some [] ∧
    ((job_completed c3sC ⟨0, 0⟩ ⟨1⟩ (some 7) (Except.ok 9)).map fun o => o.1)
      ≠ some c3sC := by
  decide

/-- Claim C3 amended: a second `job_completed(id, key, result)` for an id
whose waiter list was already drained delivers nothing, allocates nothing,
and leaves the identifier counter, every waiter list, and the queue
unchanged; it still removes the passed key from the key-to-id map when one
is passed.  In particular the registry is fully unchanged when the key
argument is `None` or is a key not currently mapped (such as the job's own
key, which the first completion already removed). -/
theorem claim3_amended {Key : Type} [DecidableEq Key] (s : Jobs Key)
    (tag : TypeTag) (id : Id) (key : Option Key) (r : Except Nat Nat)
    (hdrained : lookupA s.result_senders id = none) :
    ∃ s2,
      job_completed s tag id key r = some (s2, [], 0) ∧
      s2.last_task_id = s.last_task_id ∧
      s2.result_senders = s.result_senders ∧
      s2.queue = s.queue ∧
      s2.externalReceivers = s.externalReceivers ∧
      s2.nextSenderId = s.nextSenderId ∧
      s2.nextArcId = s.nextArcId ∧
      (∀ k, key = some k → s2.keyed_jobs = removeA s.keyed_jobs k) ∧
      (key = none → s2 = s) ∧
      (∀ k, key = some k → lookupA s.keyed_jobs k = none → s2 = s) := by
  cases key with
  | none =>
      refine ⟨s, ?_, rfl, rfl, rfl, rfl, rfl, rfl, ?_, fun _ => rfl, ?_⟩
      · rw [job_completed_none_key]
        exact jobCompletedCore_drained s tag id r hdrained
      · intro k hk
        cases hk
      · intro k hk
        cases hk
  | some k =>
      refine ⟨{ s with keyed_jobs := removeA s.keyed_jobs k }, ?_, rfl, rfl, rfl,
        rfl, rfl, rfl, ?_, ?_, ?_⟩
      · rw [job_completed_some_key]
        exact jobCompletedCore_drained _ tag id r hdrained
      · intro k2 hk2
        cases hk2
        rfl
      · intro hk
        cases hk
      · intro k2 hk2 hnone
        cases hk2
        rw [removeA_of_lookupA_none s.keyed_jobs k hnone]

/-- Claim C3 witness: the amended no-op theorem applied at the default
registry (id 1 has no waiter entry there). -/
theorem claim3_witness :
    ∃ s2,
      job_completed (Jobs.mkDefault Nat) ⟨0, 0⟩ ⟨1⟩ (some 5) (Except.ok 1)
        = some (s2, [], 0) ∧
      s2.last_task_id = (Jobs.mkDefault Nat).last_task_id ∧
      s2.result_senders = (Jobs.mkDefault Nat).result_senders ∧
      s2.queue = (Jobs.mkDefault Nat).queue ∧
      s2.externalReceivers = (Jobs.mkDefault Nat).externalReceivers ∧
      s2.nextSenderId = (Jobs.mkDefault Nat).nextSenderId ∧
      s2.nextArcId = (Jobs.mkDefault Nat).nextArcId ∧
      (∀ k, (some 5 : Option Nat) = some k →
        s2.keyed_jobs = removeA (Jobs.mkDefault Nat).keyed_jobs k) ∧
      ((some 5 : Option Nat) = none → s2 = Jobs.mkDefault Nat) ∧
      (∀ k, (some 5 : Option Nat) = some k →
        lookupA (Jobs.mkDefault Nat).keyed_jobs k = none → s2 = Jobs.mkDefault Nat) :=
  claim3_amended (Jobs.mkDefault Nat) ⟨0, 0⟩ ⟨1⟩ (some 5) (Except.ok 1) rfl

/-- Every waiter present after `create_new_task_handle::<T, E>` was either
already registered or is the one just created, which carries exactly the
type `(T, E)` of the handle being created. -/
theorem waitersOf_create_mem {Key : Type} (s : Jobs Key) (tag : TypeTag)
    (id : Id) (w : Waiter)
    (hw : w ∈ waitersOf (create_new_task_handle s tag id).1 id) :
    w ∈ waitersOf s id ∨ w.tag = tag := by
  unfold waitersOf create_new_task_handle at hw
  rw [lookupA_pushWaiter_self] at hw
  simp only [Option.getD_some] at hw
  rcases List.mem_append.mp hw with hmem | hmem
  · exact Or.inl hmem
  · rcases List.mem_singleton.mp hmem with rfl
    exact Or.inr rfl

/-- Claim C4: typed delivery never mismatches.  When every waiter stored
for `id` was registered with the result type `(T, E)` of the completing
call — which is how `enqueue` and `create_new_task_handle` create them, as
the second conjunct states — the runtime downcast performed on each waiter
succeeds, so `job_completed::<T, E>` never reaches the `unwrap` panic. -/
theorem claim4_typed_delivery {Key : Type} [DecidableEq Key] (s : Jobs Key)
    (tag : TypeTag) (id : Id) (key : Option Key) (r : Except Nat Nat)
    (hreg : ∀ w ∈ waitersOf s id, w.tag = tag) :
    (job_completed s tag id key r).isSome = true ∧
    ∀ (s2 : Jobs Key) (id2 : Id) (w : Waiter),
      w ∈ waitersOf (create_new_task_handle s2 tag id2).1 id2 →
      w ∈ waitersOf s2 id2 ∨ w.tag = tag := by
  refine ⟨?_, fun s2 id2 w hw => waitersOf_create_mem s2 tag id2 w hw⟩
  have hcore : ∀ st : Jobs Key, st.result_senders = s.result_senders →
      (jobCompletedCore st tag id r).isSome = true := by
    intro st hst
    cases hlook : lookupA st.result_senders id with
    | none => rw [jobCompletedCore_drained st tag id r hlook]; rfl
    | some ws =>
        have hws : ∀ w ∈ ws, w.tag = tag := by
          intro w hw
          apply hreg
          unfold waitersOf
          rw [hst] at hlook
          rw [hlook]
          exact hw
        cases r with
        | ok v => rw [jobCompletedCore_ok st tag id v ws hlook hws]; rfl
        | error e => rw [jobCompletedCore_err st tag id e ws hlook hws]; rfl
  cases key with
  | none =>
      rw [job_completed_none_key]
      exact hcore s rfl
  | some k =>
      rw [job_completed_some_key]
      exact hcore _ rfl

/-- The counter of the pure-enqueue trace after `n` calls. -/
theorem iterEnq_last (n : Nat) : (iterEnq n).last_task_id = n % u64Mod := by
  induction n with
  | zero =>
      rw [Nat.zero_mod]
      rfl
  | succ n ih =>
      rw [iterEnq, enqueue_eq]
      simp only [Option.map_some', Option.getD_some]
      rw [ih, Nat.mod_add_mod]

/-- The id returned by call `n + 1` of the pure-enqueue trace. -/
theorem enqIdAfter_eq (n : Nat) : enqIdAfter n = some ⟨(n + 1) % u64Mod⟩ := by
  rw [enqIdAfter, enqueue_eq]
  simp only [Option.map_some']
  rw [iterEnq_last, Nat.mod_add_mod]

/-- Claim C6 counterexample: in the trace consisting only of `enqueue`
calls, call number 1 and call number `2 ^ 64 + 1` return the same `JobId`
(the counter wraps), so it is not true that for any sequence of enqueue
calls each call returns a distinct `JobId`. -/
theorem claim6_counterexample :
    enqIdAfter 0 = some ⟨1⟩ ∧ enqIdAfter u64Mod = some ⟨1⟩ ∧ (0 : Nat) ≠ u64Mod := by
  refine ⟨?_, ?_, by decide⟩
  · rw [enqIdAfter_eq]
    rfl
  · rw [enqIdAfter_eq, Nat.add_mod_left, Nat.mod_eq_of_lt (by decide)]

/-- Claim C6 amended: identifier allocation and enqueue postcondition.  The
default registry's counter is 0; every `enqueue` call allocates the
previous counter value plus one with wraparound on overflow, pushes exactly
one `Executable` carrying that id, registers exactly one waiter for it, and
returns a handle with that id — so the first allocated `JobId` is 1, not 0.
Distinctness of returned ids holds for the first `2 ^ 64` calls of a
sequence of enqueue calls; at call `2 ^ 64 + 1` the counter has wrapped
and ids repeat (see the counterexample). -/
theorem claim6_amended :
    (∀ (Key : Type) (s : Jobs Key) (tag : TypeTag) (key : Option Key),
      ∃ s2 h,
        enqueue s tag key = some (s2, h) ∧
        h.id = ⟨(s.last_task_id + 1) % u64Mod⟩ ∧
        s2.last_task_id = (s.last_task_id + 1) % u64Mod ∧
        s2.queue = s.queue ++ [⟨h.id, key, tag⟩] ∧
        waitersOf s2 h.id = waitersOf s h.id ++ [⟨tag, some s.nextSenderId⟩] ∧
        (∀ id2, id2 ≠ h.id → waitersOf s2 id2 = waitersOf s id2) ∧
        s2.keyed_jobs = s.keyed_jobs) ∧
    (∀ Key : Type, (Jobs.mkDefault Key).last_task_id = 0) ∧
    enqIdAfter 0 = some ⟨1⟩ ∧
    (∀ i j : Nat, i < j → j < u64Mod → enqIdAfter i ≠ enqIdAfter j) := by
  refine ⟨?_, fun _ => rfl, ?_, ?_⟩
  · intro Key s tag key
    refine ⟨_, _, enqueue_eq s tag key, rfl, rfl, rfl, ?_, ?_, rfl⟩
    · unfold waitersOf
      rw [show ({ s with
            last_task_id := (s.last_task_id + 1) % u64Mod
            queue := s.queue ++ [⟨⟨(s.last_task_id + 1) % u64Mod⟩, key, tag⟩]
            result_senders :=
              pushWaiter s.result_senders ⟨(s.last_task_id + 1) % u64Mod⟩
                ⟨tag, some s.nextSenderId⟩
            nextSenderId := s.nextSenderId + 1 } : Jobs Key).result_senders
          = pushWaiter s.result_senders ⟨(s.last_task_id + 1) % u64Mod⟩
              ⟨tag, some s.nextSenderId⟩ from rfl,
        lookupA_pushWaiter_self]
      rfl
    · intro id2 hne
      unfold waitersOf
      rw [show ({ s with
            last_task_id := (s.last_task_id + 1) % u64Mod
            queue := s.queue ++ [⟨⟨(s.last_task_id + 1) % u64Mod⟩, key, tag⟩]
            result_senders :=
              pushWaiter s.result_senders ⟨(s.last_task_id + 1) % u64Mod⟩
                ⟨tag, some s.nextSenderId⟩
            nextSenderId := s.nextSenderId + 1 } : Jobs Key).result_senders
          = pushWaiter s.result_senders ⟨(s.last_task_id + 1) % u64Mod⟩
              ⟨tag, some s.nextSenderId⟩ from rfl,
        lookupA_pushWaiter_ne _ _ _ _ hne]
  · rw [enqIdAfter_eq]
    rfl
  · intro i j hij hj heq
    rw [enqIdAfter_eq, enqIdAfter_eq] at heq
    have hval : (i + 1) % u64Mod = (j + 1) % u64Mod := by
      have := Option.some.inj heq
      exact congrArg Id.val this
    have hi1 : i + 1 < u64Mod := Nat.lt_of_le_of_lt (Nat.succ_le_of_lt hij) hj
    rw [Nat.mod_eq_of_lt hi1] at hval
    rcases Nat.lt_or_ge (j + 1) u64Mod with hj1 | hj1
    · rw [Nat.mod_eq_of_lt hj1] at hval
      exact Nat.ne_of_lt (Nat.succ_lt_succ hij) hval
    · have hj2 : j + 1 = u64Mod := Nat.le_antisymm (Nat.succ_le_of_lt hj) hj1
      rw [hj2, Nat.mod_self] at hval
      exact Nat.succ_ne_zero i hval

/-- Claim C6 witness: the amended theorem applied at concrete inputs — the
ids of calls 1 and 2 of the pure-enqueue trace differ, and `enqueue` from
the default registry behaves as characterized. -/
theorem claim6_witness :
    enqIdAfter 0 ≠ enqIdAfter 1 ∧
    (∃ s2 h,
      enqueue (Jobs.mkDefault Nat) ⟨0, 0⟩ none = some (s2, h) ∧
      h.id = ⟨((Jobs.mkDefault Nat).last_task_id + 1) % u64Mod⟩ ∧
      s2.last_task_id = ((Jobs.mkDefault Nat).last_task_id + 1) % u64Mod ∧
      s2.queue = (Jobs.mkDefault Nat).queue ++ [⟨h.id, none, ⟨0, 0⟩⟩] ∧
      waitersOf s2 h.id =
        waitersOf (Jobs.mkDefault Nat) h.id
          ++ [⟨⟨0, 0⟩, some (Jobs.mkDefault Nat).nextSenderId⟩] ∧
      (∀ id2, id2 ≠ h.id →
        waitersOf s2 id2 = waitersOf (Jobs.mkDefault Nat) id2) ∧
      s2.keyed_jobs = (Jobs.mkDefault Nat).keyed_jobs) :=
  ⟨claim6_amended.2.2.2 0 1 (by decide) (by decide),
   claim6_amended.1 Nat (Jobs.mkDefault Nat) ⟨0, 0⟩ none⟩

/-- If every waiter stored for `id` carries the call's type, `job_completed`
returns (the downcasts cannot panic). -/
theorem job_completed_isSome_of_tags {Key : Type} [DecidableEq Key]
    (s : Jobs Key) (tag : TypeTag) (id : Id) (key : Option Key)
    (r : Except Nat Nat)
    (hreg : ∀ w ∈ waitersOf s id, w.tag = tag) :
    ∃ o, job_completed s tag id key r = some o := by
  have hcore : ∀ st : Jobs Key, st.result_senders = s.result_senders →
      ∃ o, jobCompletedCore st tag id r = some o := by
    intro st hst
    cases hlook : lookupA st.result_senders id with
    | none => exact ⟨_, jobCompletedCore_drained st tag id r hlook⟩
    | some ws =>
        have hws : ∀ w ∈ ws, w.tag = tag := by
          intro w hw
          apply hreg
          unfold waitersOf
          rw [hst] at hlook
          rw [hlook]
          exact hw
        cases r with
        | ok v => exact ⟨_, jobCompletedCore_ok st tag id v ws hlook hws⟩
        | error e => exact ⟨_, jobCompletedCore_err st tag id e ws hlook hws⟩
  cases key with
  | none =>
      rw [job_completed_none_key]
      exact hcore s rfl
  | some k =>
      rw [job_completed_some_key]
      exact hcore _ rfl

/-- Whenever `job_completed` returns, the new state keeps the counter, the
queue, and the external receivers; its key-to-id map is the old one with
the passed key removed. -/
theorem job_completed_success_shape {Key : Type} [DecidableEq Key]
    (s : Jobs Key) (tag : TypeTag) (id : Id) (key : Option Key)
    (r : Except Nat Nat) (o : Jobs Key × List Delivery × Nat)
    (h : job_completed s tag id key r = some o) :
    (∀ k, key = some k → o.1.keyed_jobs = removeA s.keyed_jobs k) ∧
    (key = none → o.1.keyed_jobs = s.keyed_jobs) ∧
    o.1.last_task_id = s.last_task_id ∧
    o.1.queue = s.queue ∧
    o.1.externalReceivers = s.externalReceivers := by
  have hcore : ∀ (st : Jobs Key) (o2 : Jobs Key × List Delivery × Nat),
      jobCompletedCore st tag id r = some o2 →
      o2.1.keyed_jobs = st.keyed_jobs ∧ o2.1.last_task_id = st.last_task_id ∧
      o2.1.queue = st.queue ∧ o2.1.externalReceivers = st.externalReceivers := by
    intro st o2 h2
    rw [jobCompletedCore] at h2
    cases hlook : lookupA st.result_senders id with
    | none =>
        simp only [hlook, Option.some.injEq] at h2
        subst h2
        exact ⟨rfl, rfl, rfl, rfl⟩
    | some ws =>
        cases r with
        | ok v =>
            cases hd : deliverList tag (.ok v) ws with
            | none =>
                simp only [hlook, hd] at h2
                cases h2
            | some ds =>
                simp only [hlook, hd, Option.some.injEq] at h2
                subst h2
                exact ⟨rfl, rfl, rfl, rfl⟩
        | error e =>
            cases hd : deliverList tag (.err ⟨st.nextArcId, e⟩) ws with
            | none =>
                simp only [hlook, hd] at h2
                cases h2
            | some ds =>
                simp only [hlook, hd, Option.some.injEq] at h2
                subst h2
                exact ⟨rfl, rfl, rfl, rfl⟩
  cases key with
  | none =>
      rw [job_completed_none_key] at h
      obtain ⟨h1, h2, h3, h4⟩ := hcore s o h
      refine ⟨?_, fun _ => h1, h2, h3, h4⟩
      intro k hk
      cases hk
  | some k =>
      rw [job_completed_some_key] at h
      obtain ⟨h1, h2, h3, h4⟩ :=
        hcore { s with keyed_jobs := removeA s.keyed_jobs k } o h
      refine ⟨?_, ?_, h2, h3, h4⟩
      · intro k2 hk2
        injection hk2 with hk3
        rw [← hk3]
        exact h1
      · intro hk
        cases hk

/-- Claim C7: key reuse after completion.  For a key `k` mapped to id `x`
(allocated, so `x.val ≤ last_task_id`, with the counter not about to
wrap), `job_completed(x, Some(k), result)` removes the mapping for `k`,
and a subsequent `lookup_or_enqueue` with key `k` returns a handle with a
`JobId` different from `x` and pushes a new `Executable` onto the queue. -/
theorem claim7_key_reuse {Key : Type} [DecidableEq Key] (s : Jobs Key)
    (k : Key) (x : Id) (tag tag2 : TypeTag) (r : Except Nat Nat)
    (_hmap : lookupA s.keyed_jobs k = some x)
    (halloc : x.val ≤ s.last_task_id)
    (hnowrap : s.last_task_id + 1 < u64Mod)
    (hnodup : (s.keyed_jobs.map Prod.fst).Nodup)
    (htags : ∀ w ∈ waitersOf s x, w.tag = tag) :
    ∃ s2 ds n,
      job_completed s tag x (some k) r = some (s2, ds, n) ∧
      lookupA s2.keyed_jobs k = none ∧
      ∃ s3 h,
        lookup_or_enqueue s2 tag2 k = some (s3, h) ∧
        h.id ≠ x ∧
        s3.queue = s2.queue ++ [⟨h.id, some k, tag2⟩] := by
  obtain ⟨o, ho⟩ := job_completed_isSome_of_tags s tag x (some k) r htags
  obtain ⟨hkeyedS, -, hlast, -, -⟩ :=
    job_completed_success_shape s tag x (some k) r o ho
  have hnone : lookupA o.1.keyed_jobs k = none := by
    rw [hkeyedS k rfl]
    exact lookupA_removeA_self _ _ hnodup
  obtain ⟨s3, h, hcall, hid, -, -, -, -, -, hqueue, -, -, -⟩ :=
    lookup_or_enqueue_miss o.1 tag2 k hnone
  refine ⟨o.1, o.2.1, o.2.2, ho, hnone, s3, h, hcall, ?_, hqueue⟩
  intro hxid
  have hval : h.id.val = x.val := congrArg Id.val hxid
  rw [hid] at hval
  simp only at hval
  rw [hlast, Nat.mod_eq_of_lt hnowrap] at hval
  omega

/-- Claim C7 witness: completing the keyed job 1 from a concrete state and
re-looking-up its key. -/
theorem claim7_witness :
    ∃ s2 ds n,
      job_completed
        ({ last_task_id := 1
           result_senders := [(⟨1⟩, [⟨⟨0, 0⟩, some 0⟩])]
           keyed_jobs := [(4, ⟨1⟩)]
           queue := []
           externalReceivers := 0
           nextSenderId := 1
           nextArcId := 0 } : Jobs Nat) ⟨0, 0⟩ ⟨1⟩ (some 4) (Except.ok 3)
        = some (s2, ds, n) ∧
      lookupA s2.keyed_jobs 4 = none ∧
      ∃ s3 h,
        lookup_or_enqueue s2 ⟨0, 0⟩ 4 = some (s3, h) ∧
        h.id ≠ ⟨1⟩ ∧
        s3.queue = s2.queue ++ [⟨h.id, some 4, ⟨0, 0⟩⟩] :=
  claim7_key_reuse _ 4 ⟨1⟩ ⟨0, 0⟩ ⟨0, 0⟩ (Except.ok 3) rfl (by decide) (by decide)
    (by decide) (by decide)

/-- Claim C8: abandoned-sender detection (modelled from the spec, §4.5 —
`jobs/task.rs` is not among the provided sources).  Resolving a handle
against its one-shot channel yields exactly one of `Ok(output)`,
`Err(shared_error)` — the registry-delivered results — or the distinct
"execution aborted" outcome exactly when the sending side was destroyed
without a send; once the sender is gone resolution never stays pending,
and the aborted outcome is never confused with the job's own error. -/
theorem claim8_handle_resolution (st : OneshotState) :
    (st ≠ OneshotState.pending → resolveHandle st ≠ ResolveOutcome.stillPending) ∧
    (resolveHandle st = ResolveOutcome.aborted ↔ st = OneshotState.senderDropped) ∧
    (∀ v, resolveHandle st = ResolveOutcome.okOut v ↔ st = OneshotState.sent (Msg.ok v)) ∧
    (∀ a, resolveHandle st = ResolveOutcome.errShared a ↔ st = OneshotState.sent (Msg.err a)) ∧
    (∀ a, ResolveOutcome.aborted ≠ ResolveOutcome.errShared a) ∧
    (∀ v, ResolveOutcome.aborted ≠ ResolveOutcome.okOut v) := by
  refine ⟨?_, ?_, ?_, ?_, ?_, ?_⟩
  · intro hne
    cases st with
    | pending => exact absurd rfl hne
    | sent m => cases m <;> simp [resolveHandle]
    | senderDropped => simp [resolveHandle]
  · cases st with
    | pending => simp [resolveHandle]
    | sent m => cases m <;> simp [resolveHandle]
    | senderDropped => simp [resolveHandle]
  · intro v
    cases st with
    | pending => simp [resolveHandle]
    | sent m => cases m <;> simp [resolveHandle]
    | senderDropped => simp [resolveHandle]
  · intro a
    cases st with
    | pending => simp [resolveHandle]
    | sent m => cases m <;> simp [resolveHandle]
    | senderDropped => simp [resolveHandle]
  · intro a h
    cases h
  · intro v h
    cases h

/-- Claim C8 witness: the resolution trichotomy applied to the
dropped-sender state. -/
theorem claim8_witness :
    resolveHandle OneshotState.senderDropped ≠ ResolveOutcome.stillPending ∧
    (resolveHandle OneshotState.senderDropped = ResolveOutcome.aborted ↔
      OneshotState.senderDropped = OneshotState.senderDropped) :=
  ⟨(claim8_handle_resolution OneshotState.senderDropped).1 (by decide),
   (claim8_handle_resolution OneshotState.senderDropped).2.1⟩

/-- Claim C4 witness: completing id 1 in a state whose single waiter for
id 1 carries the completing call's type. -/
theorem claim4_witness :
    (job_completed
        ({ last_task_id := 1
           result_senders := [(⟨1⟩, [⟨⟨3, 4⟩, some 0⟩])]
           keyed_jobs := []
           queue := []
           externalReceivers := 0
           nextSenderId := 1
           nextArcId := 0 } : Jobs Nat) ⟨3, 4⟩ ⟨1⟩ none (Except.ok 2)).isSome
      = true :=
  (claim4_typed_delivery _ ⟨3, 4⟩ ⟨1⟩ none (Except.ok 2) (by decide)).1

/-! ### Trace reasoning for the dedup-mapping invariant -/

theorem wfFrom_append {Key : Type} (l1 l2 : List (Ev Key)) :
    ∀ seen : List (Ev Key),
      wfFrom seen (l1 ++ l2) ↔ wfFrom seen l1 ∧ wfFrom (seen ++ l1) l2 := by
  induction l1 with
  | nil => intro seen; simp [wfFrom]
  | cons e t ih =>
      intro seen
      simp only [List.cons_append, wfFrom, List.append_eq]
      rw [ih (seen ++ [e]), List.append_assoc, List.singleton_append, and_assoc]

theorem runEv_extends {Key : Type} [DecidableEq Key] :
    ∀ (ops : List (Op Key)) (s : Jobs Key) (h : List (Ev Key))
      (sf : Jobs Key) (hf : List (Ev Key)),
      runEv s h ops = some (sf, hf) → ∃ tail, hf = h ++ tail := by
  intro ops
  induction ops with
  | nil =>
      intro s h sf hf hrun
      rw [runEv] at hrun
      cases hrun
      exact ⟨[], (List.append_nil h).symm⟩
  | cons op rest ih =>
      intro s h sf hf hrun
      rw [runEv] at hrun
      cases hstep : stepEv s op with
      | none => rw [hstep] at hrun; cases hrun
      | some p =>
          rw [hstep] at hrun
          obtain ⟨tail, htail⟩ := ih p.1 (h ++ p.2) sf hf hrun
          exact ⟨p.2 ++ tail, by rw [htail, List.append_assoc]⟩

theorem two_le_countP {α : Type} (p : α → Bool) (a b : α) :
    ∀ l : List α, a ∈ l → b ∈ l → a ≠ b → p a = true → p b = true →
      2 ≤ l.countP p := by
  intro l
  induction l with
  | nil => intro ha; cases ha
  | cons x t ih =>
      intro ha hb hab hpa hpb
      rw [List.countP_cons]
      rcases List.mem_cons.mp ha with rfl | ha2
      · have hbt : b ∈ t := by
          rcases List.mem_cons.mp hb with rfl | hb2
          · exact absurd rfl hab
          · exact hb2
        have h1 : 0 < t.countP p := List.countP_pos_iff.mpr ⟨b, hbt, hpb⟩
        rw [if_pos hpa]
        omega
      · rcases List.mem_cons.mp hb with rfl | hb2
        · have h1 : 0 < t.countP p := List.countP_pos_iff.mpr ⟨a, ha2, hpa⟩
          rw [if_pos hpb]
          omega
        · have h2 := ih ha2 hb2 hab hpa hpb
          omega

theorem isComplFor_compl_self {Key : Type} (id : Id) (key : Option Key) :
    isComplFor id (Ev.compl id key) = true := by
  simp [isComplFor]

theorem eq_compl_of_isComplFor {Key : Type} (id : Id) (e : Ev Key)
    (h : isComplFor id e = true) : ∃ key2, e = Ev.compl id key2 := by
  cases e with
  | enq id2 key b => simp [isComplFor] at h
  | compl id2 key =>
      simp only [isComplFor, decide_eq_true_eq] at h
      exact ⟨key, by rw [h]⟩

theorem isEnqFor_enq_self {Key : Type} (id : Id) (key : Option Key) (b : Bool) :
    isEnqFor id (Ev.enq id key b) = true := by
  simp [isEnqFor]

theorem histInv_mkDefault {Key : Type} [DecidableEq Key] :
    histInv (Jobs.mkDefault Key) ([] : List (Ev Key)) := by
  refine ⟨rfl, ?_, ?_, ?_, ?_, ?_, ?_⟩
  · intro id key b hmem; cases hmem
  · intro id; simp [countEnq]
  · intro id key hmem; cases hmem
  · intro id key hmem; cases hmem
  · simp [Jobs.mkDefault]
  · intro k id
    constructor
    · intro hl; cases hl
    · rintro ⟨hmem, -⟩; cases hmem

theorem countEnq_append {Key : Type} (l1 l2 : List (Ev Key)) :
    countEnq (l1 ++ l2) = countEnq l1 + countEnq l2 := by
  simp [countEnq]

theorem countEnq_enq_single {Key : Type} (id : Id) (key : Option Key) (b : Bool) :
    countEnq [Ev.enq id key b] = 1 := by
  simp [countEnq, List.countP_cons, isEnqEv]

theorem countEnq_compl_single {Key : Type} (id : Id) (key : Option Key) :
    countEnq [Ev.compl id key] = 0 := by
  simp [countEnq, List.countP_cons, isEnqEv]

/-- A fresh identifier (value above every enqueued id) has no enqueue and no
completion event in the history. -/
theorem fresh_id_no_events {Key : Type} [DecidableEq Key] (h : List (Ev Key))
    (hids : ∀ id key b, Ev.enq id key b ∈ h → 1 ≤ id.val ∧ id.val ≤ countEnq h)
    (hce : ∀ id key, Ev.compl id key ∈ h → ∃ key2 b, Ev.enq id key2 b ∈ h)
    (id : Id) (hfresh : countEnq h < id.val) :
    (∀ key b, Ev.enq id key b ∉ h) ∧ (∀ e ∈ h, isComplFor id e = false) := by
  constructor
  · intro key b hmem
    obtain ⟨-, hle⟩ := hids id key b hmem
    omega
  · intro e hmem
    cases hcf : isComplFor id e with
    | false => rfl
    | true =>
        obtain ⟨key2, rfl⟩ := eq_compl_of_isComplFor id e hcf
        obtain ⟨key3, b3, hmem3⟩ := hce id key2 hmem
        obtain ⟨-, hle⟩ := hids id key3 b3 hmem3
        omega

/-- Appending one enqueue event for a fresh id keeps the per-id enqueue
count at most one. -/
theorem countP_enqFor_append_fresh {Key : Type} [DecidableEq Key]
    (h : List (Ev Key)) (newId : Id) (key : Option Key) (b : Bool)
    (hids : ∀ id key2 b2, Ev.enq id key2 b2 ∈ h → 1 ≤ id.val ∧ id.val ≤ countEnq h)
    (hone : ∀ id : Id, h.countP (isEnqFor id) ≤ 1)
    (hfresh : countEnq h < newId.val) :
    ∀ id : Id, (h ++ [Ev.enq newId key b]).countP (isEnqFor id) ≤ 1 := by
  intro id
  rw [List.countP_append]
  cases hdec : isEnqFor id (Ev.enq newId key b) with
  | false =>
      simpa [List.countP_cons, List.countP_nil, hdec] using hone id
  | true =>
      have heq : newId = id := by simpa [isEnqFor] using hdec
      subst heq
      have hzero : h.countP (isEnqFor newId) = 0 := by
        rw [List.countP_eq_zero]
        intro e hmem hpe
        cases e with
        | enq id2 key2 b2 =>
            have hid2 : id2 = newId := by simpa [isEnqFor] using hpe
            obtain ⟨-, hle⟩ := hids id2 key2 b2 hmem
            rw [hid2] at hle
            omega
        | compl id2 key2 => simp [isEnqFor] at hpe
      simp [List.countP_cons, List.countP_nil, hdec, hzero]

/-- One preservation step of the history invariant: any successful,
well-formed registry call keeps `histInv`. -/
theorem histInv_step {Key : Type} [DecidableEq Key] (s : Jobs Key)
    (h : List (Ev Key)) (op : Op Key) (s2 : Jobs Key) (evs : List (Ev Key))
    (hstep : stepEv s op = some (s2, evs))
    (hwf : wfFrom h evs)
    (hbound : countEnq (h ++ evs) < u64Mod)
    (hinv : histInv s h) :
    histInv s2 (h ++ evs) := by
  obtain ⟨hc, hids, hone, hce, hplain, hnodup, hiff⟩ := hinv
  cases op with
  | createHandleOp tag id =>
      simp only [stepEv, Option.some.injEq, Prod.mk.injEq] at hstep
      obtain ⟨rfl, rfl⟩ := hstep
      rw [List.append_nil]
      exact ⟨hc, hids, hone, hce, hplain, hnodup, hiff⟩
  | queueCloneOp =>
      simp only [stepEv, Option.some.injEq, Prod.mk.injEq] at hstep
      obtain ⟨rfl, rfl⟩ := hstep
      rw [List.append_nil]
      exact ⟨hc, hids, hone, hce, hplain, hnodup, hiff⟩
  | dropReceiverOp =>
      simp only [stepEv, Option.some.injEq, Prod.mk.injEq] at hstep
      obtain ⟨rfl, rfl⟩ := hstep
      rw [List.append_nil]
      exact ⟨hc, hids, hone, hce, hplain, hnodup, hiff⟩
  | enqueueOp tag key =>
      simp only [stepEv, enqueue_eq, Option.map_some', Option.some.injEq,
        Prod.mk.injEq] at hstep
      obtain ⟨rfl, rfl⟩ := hstep
      have hca : countEnq (h ++ [Ev.enq ⟨(s.last_task_id + 1) % u64Mod⟩ key false])
          = countEnq h + 1 := by
        rw [countEnq_append, countEnq_enq_single]
      have hb2 : countEnq h + 1 < u64Mod := by rw [← hca]; exact hbound
      have hval : (s.last_task_id + 1) % u64Mod = countEnq h + 1 := by
        rw [hc, Nat.mod_eq_of_lt hb2]
      have hfresh : countEnq h < (⟨(s.last_task_id + 1) % u64Mod⟩ : Id).val := by
        simp only [hval]
        omega
      refine ⟨?_, ?_, ?_, ?_, ?_, hnodup, ?_⟩
      · rw [hca]
        exact hval
      · intro id key2 b hmem
        rw [hca]
        rcases List.mem_append.mp hmem with hm | hm
        · obtain ⟨h1, h2⟩ := hids id key2 b hm
          exact ⟨h1, Nat.le_succ_of_le h2⟩
        · have hm2 := List.mem_singleton.mp hm
          injection hm2 with u1 u2 u3
          subst u1
          simp only [hval]
          omega
      · exact countP_enqFor_append_fresh h _ key false hids hone hfresh
      · intro id key2 hmem
        rcases List.mem_append.mp hmem with hm | hm
        · obtain ⟨key3, b3, hmem3⟩ := hce id key2 hm
          exact ⟨key3, b3, List.mem_append_left _ hmem3⟩
        · have hm2 := List.mem_singleton.mp hm
          cases hm2
      · intro id key2 hmem
        rcases List.mem_append.mp hmem with hm | hm
        · exact hplain id key2 hm
        · have hm2 := List.mem_singleton.mp hm
          injection hm2 with u1 u2 u3
          obtain ⟨hok, -⟩ := hwf
          rw [u2]
          exact hok rfl
      · intro k id
        rw [show ({ s with
              last_task_id := (s.last_task_id + 1) % u64Mod
              queue := s.queue ++ [⟨⟨(s.last_task_id + 1) % u64Mod⟩, key, tag⟩]
              result_senders :=
                pushWaiter s.result_senders ⟨(s.last_task_id + 1) % u64Mod⟩
                  ⟨tag, some s.nextSenderId⟩
              nextSenderId := s.nextSenderId + 1 } : Jobs Key).keyed_jobs
            = s.keyed_jobs from rfl]
        constructor
        · intro hsome
          obtain ⟨hmem, hnc⟩ := (hiff k id).mp hsome
          refine ⟨List.mem_append_left _ hmem, ?_⟩
          intro e hmem2
          rcases List.mem_append.mp hmem2 with hm | hm
          · exact hnc e hm
          · rcases List.mem_singleton.mp hm with rfl
            rfl
        · rintro ⟨hmem, hnc⟩
          rcases List.mem_append.mp hmem with hm | hm
          · exact (hiff k id).mpr ⟨hm, fun e he => hnc e (List.mem_append_left _ he)⟩
          · have hm2 := List.mem_singleton.mp hm
            injection hm2 with u1 u2 u3
            cases u3
  | lookupOrEnqueueOp tag k0 =>
      simp only [stepEv] at hstep
      cases hk : lookupA s.keyed_jobs k0 with
      | some id0 =>
          rw [hk] at hstep
          obtain ⟨s1, h1, hcall, hid1, -, -, hlast1, -, hkeyed1, -, -, -, -⟩ :=
            lookup_or_enqueue_hit s tag k0 id0 hk
          rw [hcall] at hstep
          simp only [Option.map_some', Option.some.injEq, Prod.mk.injEq] at hstep
          obtain ⟨rfl, rfl⟩ := hstep
          rw [List.append_nil]
          refine ⟨?_, hids, hone, hce, hplain, ?_, ?_⟩
          · rw [hlast1]
            exact hc
          · rw [hkeyed1]
            exact hnodup
          · intro k id
            rw [hkeyed1]
            exact hiff k id
      | none =>
          rw [hk] at hstep
          obtain ⟨s1, h1, hcall, hid1, -, -, hlast1, -, hkeyed1, -, -, -, -⟩ :=
            lookup_or_enqueue_miss s tag k0 hk
          rw [hcall] at hstep
          simp only [Option.map_some', Option.some.injEq, Prod.mk.injEq] at hstep
          obtain ⟨rfl, rfl⟩ := hstep
          have hca : countEnq (h ++ [Ev.enq h1.id (some k0) true]) = countEnq h + 1 := by
            rw [countEnq_append, countEnq_enq_single]
          have hb2 : countEnq h + 1 < u64Mod := by rw [← hca]; exact hbound
          have hval : h1.id.val = countEnq h + 1 := by
            rw [hid1]
            simp only
            rw [hc, Nat.mod_eq_of_lt hb2]
          have hfresh : countEnq h < h1.id.val := by omega
          refine ⟨?_, ?_, ?_, ?_, ?_, ?_, ?_⟩
          · rw [hca, hlast1, hc, Nat.mod_eq_of_lt (hc ▸ hb2)]
          · intro id key2 b hmem
            rw [hca]
            rcases List.mem_append.mp hmem with hm | hm
            · obtain ⟨hl, hr⟩ := hids id key2 b hm
              exact ⟨hl, Nat.le_succ_of_le hr⟩
            · have hm2 := List.mem_singleton.mp hm
              injection hm2 with u1 u2 u3
              subst u1
              omega
          · exact countP_enqFor_append_fresh h _ (some k0) true hids hone hfresh
          · intro id key2 hmem
            rcases List.mem_append.mp hmem with hm | hm
            · obtain ⟨key3, b3, hmem3⟩ := hce id key2 hm
              exact ⟨key3, b3, List.mem_append_left _ hmem3⟩
            · have hm2 := List.mem_singleton.mp hm
              cases hm2
          · intro id key2 hmem
            rcases List.mem_append.mp hmem with hm | hm
            · exact hplain id key2 hm
            · have hm2 := List.mem_singleton.mp hm
              injection hm2 with u1 u2 u3
              cases u3
          · rw [hkeyed1]
            exact nodup_keys_insertA s.keyed_jobs k0 h1.id hnodup
          · intro k id
            rw [hkeyed1]
            by_cases hkk : k = k0
            · subst hkk
              rw [lookupA_insertA_self]
              constructor
              · intro hsome
                have hideq : id = h1.id := (Option.some.inj hsome).symm
                subst hideq
                refine ⟨List.mem_append_right _ (List.mem_singleton.mpr rfl), ?_⟩
                intro e hmem2
                rcases List.mem_append.mp hmem2 with hm | hm
                · exact (fresh_id_no_events h hids hce _ hfresh).2 e hm
                · rcases List.mem_singleton.mp hm with rfl
                  rfl
              · rintro ⟨hmem, hnc⟩
                rcases List.mem_append.mp hmem with hm | hm
                · have hlook : lookupA s.keyed_jobs k = some id :=
                    (hiff k id).mpr ⟨hm, fun e he => hnc e (List.mem_append_left _ he)⟩
                  rw [hk] at hlook
                  cases hlook
                · have hm2 := List.mem_singleton.mp hm
                  injection hm2 with u1 u2 u3
                  rw [u1]
            · rw [lookupA_insertA_ne _ _ _ _ hkk]
              constructor
              · intro hsome
                obtain ⟨hmem, hnc⟩ := (hiff k id).mp hsome
                refine ⟨List.mem_append_left _ hmem, ?_⟩
                intro e hmem2
                rcases List.mem_append.mp hmem2 with hm | hm
                · exact hnc e hm
                · rcases List.mem_singleton.mp hm with rfl
                  rfl
              · rintro ⟨hmem, hnc⟩
                rcases List.mem_append.mp hmem with hm | hm
                · exact (hiff k id).mpr
                    ⟨hm, fun e he => hnc e (List.mem_append_left _ he)⟩
                · have hm2 := List.mem_singleton.mp hm
                  injection hm2 with u1 u2 u3
                  exact absurd (Option.some.inj u2) hkk
  | completedOp tag id0 keyArg r =>
      simp only [stepEv] at hstep
      cases hjc : job_completed s tag id0 keyArg r with
      | none => rw [hjc] at hstep; cases hstep
      | some o =>
          rw [hjc] at hstep
          simp only [Option.map_some', Option.some.injEq, Prod.mk.injEq] at hstep
          obtain ⟨rfl, rfl⟩ := hstep
          obtain ⟨hkeyedS, hkeyedN, hlast, -, -⟩ :=
            job_completed_success_shape s tag id0 keyArg r o hjc
          obtain ⟨hok, -⟩ := hwf
          obtain ⟨⟨b0, henq0⟩, hnc0⟩ := hok
          have hca : countEnq (h ++ [Ev.compl id0 keyArg]) = countEnq h := by
            rw [countEnq_append, countEnq_compl_single]
            rfl
          refine ⟨?_, ?_, ?_, ?_, ?_, ?_, ?_⟩
          · rw [hca, hlast]
            exact hc
          · intro id key2 b hmem
            rw [hca]
            rcases List.mem_append.mp hmem with hm | hm
            · exact hids id key2 b hm
            · have hm2 := List.mem_singleton.mp hm
              cases hm2
          · intro id
            rw [List.countP_append]
            simpa [List.countP_cons, List.countP_nil,
              show isEnqFor id (Ev.compl id0 keyArg) = false from rfl] using hone id
          · intro id key2 hmem
            rcases List.mem_append.mp hmem with hm | hm
            · obtain ⟨key3, b3, hmem3⟩ := hce id key2 hm
              exact ⟨key3, b3, List.mem_append_left _ hmem3⟩
            · have hm2 := List.mem_singleton.mp hm
              injection hm2 with u1 u2
              refine ⟨keyArg, b0, List.mem_append_left _ ?_⟩
              rw [u1]
              exact henq0
          · intro id key2 hmem
            rcases List.mem_append.mp hmem with hm | hm
            · exact hplain id key2 hm
            · have hm2 := List.mem_singleton.mp hm
              cases hm2
          · cases keyArg with
            | none =>
                rw [hkeyedN rfl]
                exact hnodup
            | some k1 =>
                rw [hkeyedS k1 rfl]
                exact nodup_keys_removeA s.keyed_jobs k1 hnodup
          · intro k id
            cases keyArg with
            | none =>
                rw [hkeyedN rfl]
                constructor
                · intro hsome
                  obtain ⟨hmem, hnc⟩ := (hiff k id).mp hsome
                  refine ⟨List.mem_append_left _ hmem, ?_⟩
                  intro e hmem2
                  rcases List.mem_append.mp hmem2 with hm | hm
                  · exact hnc e hm
                  · rcases List.mem_singleton.mp hm with rfl
                    cases hcf : isComplFor id (Ev.compl id0 (none : Option Key)) with
                    | false => rfl
                    | true =>
                        have hid0 : id0 = id := by
                          simpa [isComplFor] using hcf
                        subst hid0
                        have hneq : Ev.enq id0 (some k) true
                            ≠ Ev.enq id0 (none : Option Key) b0 := by
                          intro heq
                          injection heq with u1 u2 u3
                          cases u2
                        have h2le := two_le_countP (isEnqFor id0) _ _ h hmem henq0 hneq
                          (isEnqFor_enq_self id0 (some k) true)
                          (isEnqFor_enq_self id0 none b0)
                        have h1le := hone id0
                        omega
                · rintro ⟨hmem, hnc⟩
                  rcases List.mem_append.mp hmem with hm | hm
                  · exact (hiff k id).mpr
                      ⟨hm, fun e he => hnc e (List.mem_append_left _ he)⟩
                  · have hm2 := List.mem_singleton.mp hm
                    cases hm2
            | some k1 =>
                rw [hkeyedS k1 rfl]
                have hb0 : b0 = true := by
                  cases b0 with
                  | false =>
                      have hcontra := hplain id0 (some k1) henq0
                      cases hcontra
                  | true => rfl
                rw [hb0] at henq0
                have hlook1 : lookupA s.keyed_jobs k1 = some id0 :=
                  (hiff k1 id0).mpr ⟨henq0, hnc0⟩
                by_cases hkk : k = k1
                · subst hkk
                  rw [lookupA_removeA_self _ _ hnodup]
                  constructor
                  · intro hsome
                    cases hsome
                  · rintro ⟨hmem, hnc⟩
                    rcases List.mem_append.mp hmem with hm | hm
                    · have hlook2 : lookupA s.keyed_jobs k = some id :=
                        (hiff k id).mpr
                          ⟨hm, fun e he => hnc e (List.mem_append_left _ he)⟩
                      have hid0 : id0 = id := by
                        rw [hlook1] at hlook2
                        exact Option.some.inj hlook2
                      have hzz := hnc (Ev.compl id0 (some k))
                        (List.mem_append_right _ (List.mem_singleton.mpr rfl))
                      rw [hid0, isComplFor_compl_self] at hzz
                      cases hzz
                    · have hm2 := List.mem_singleton.mp hm
                      cases hm2
                · rw [lookupA_removeA_ne _ _ _ hkk]
                  constructor
                  · intro hsome
                    obtain ⟨hmem, hnc⟩ := (hiff k id).mp hsome
                    refine ⟨List.mem_append_left _ hmem, ?_⟩
                    intro e hmem2
                    rcases List.mem_append.mp hmem2 with hm | hm
                    · exact hnc e hm
                    · rcases List.mem_singleton.mp hm with rfl
                      cases hcf : isComplFor id (Ev.compl id0 (some k1)) with
                      | false => rfl
                      | true =>
                          have hid0 : id0 = id := by
                            simpa [isComplFor] using hcf
                          subst hid0
                          have hneq : Ev.enq id0 (some k) true
                              ≠ Ev.enq id0 (some k1) true := by
                            intro heq
                            injection heq with u1 u2 u3
                            exact hkk (Option.some.inj u2)
                          have h2le := two_le_countP (isEnqFor id0) _ _ h hmem henq0
                            hneq (isEnqFor_enq_self id0 (some k) true)
                            (isEnqFor_enq_self id0 (some k1) true)
                          have h1le := hone id0
                          omega
                  · rintro ⟨hmem, hnc⟩
                    rcases List.mem_append.mp hmem with hm | hm
                    · exact (hiff k id).mpr
                        ⟨hm, fun e he => hnc e (List.mem_append_left _ he)⟩
                    · have hm2 := List.mem_singleton.mp hm
                      cases hm2

/-- The history invariant holds after replaying any successful run whose
full event history is well-formed and enqueues fewer than `2 ^ 64` jobs. -/
theorem runEv_histInv {Key : Type} [DecidableEq Key] :
    ∀ (ops : List (Op Key)) (s : Jobs Key) (h : List (Ev Key))
      (sf : Jobs Key) (hf : List (Ev Key)),
      runEv s h ops = some (sf, hf) →
      histInv s h →
      wfFrom [] hf →
      countEnq hf < u64Mod →
      histInv sf hf := by
  intro ops
  induction ops with
  | nil =>
      intro s h sf hf hrun hinv hwf hb
      rw [runEv] at hrun
      simp only [Option.some.injEq, Prod.mk.injEq] at hrun
      obtain ⟨rfl, rfl⟩ := hrun
      exact hinv
  | cons op rest ih =>
      intro s h sf hf hrun hinv hwf hb
      rw [runEv] at hrun
      cases hstep : stepEv s op with
      | none => rw [hstep] at hrun; cases hrun
      | some p =>
          obtain ⟨s2, evs⟩ := p
          rw [hstep] at hrun
          have hrun2 : runEv s2 (h ++ evs) rest = some (sf, hf) := hrun
          obtain ⟨tail, htail⟩ := runEv_extends rest s2 (h ++ evs) sf hf hrun2
          subst htail
          have hwf2 := (wfFrom_append (h ++ evs) tail []).mp hwf
          rw [List.nil_append] at hwf2
          have hwf3 := (wfFrom_append h evs []).mp hwf2.1
          rw [List.nil_append] at hwf3
          have hb2 : countEnq (h ++ evs) < u64Mod := by
            rw [countEnq_append] at hb
            omega
          exact ih s2 (h ++ evs) sf ((h ++ evs) ++ tail) hrun2
            (histInv_step s h op s2 evs hstep hwf3.2 hb2 hinv) hwf hb

/-- Claim C5 amended: the dedup-mapping invariant.  For every state
reachable from the default registry by a sequence of calls whose event
history is well-formed — every `job_completed` passes the id together with
the key recorded in the `Executable` that was enqueued for that id, at most
one completion occurs per id, and direct `enqueue` calls pass no key (the
worker-pool contract of §6) — and which enqueues fewer than `2 ^ 64` jobs,
a `DedupKey` is present in the key-to-id map if and only if the job with
the mapped `JobId` was enqueued via `lookup_or_enqueue` with that key and
`job_completed` has not yet been called for it.  Without the
well-formedness restriction the claim is false (see the counterexample). -/
theorem claim5_amended {Key : Type} [DecidableEq Key] (ops : List (Op Key))
    (sf : Jobs Key) (hf : List (Ev Key))
    (hrun : runEv (Jobs.mkDefault Key) [] ops = some (sf, hf))
    (hwf : wfHist hf)
    (hbound : countEnq hf < u64Mod) :
    ∀ (k : Key) (id : Id),
      lookupA sf.keyed_jobs k = some id ↔
        (Ev.enq id (some k) true ∈ hf ∧ ∀ e ∈ hf, isComplFor id e = false) :=
  fun k id =>
    (runEv_histInv ops (Jobs.mkDefault Key) [] sf hf hrun histInv_mkDefault
      hwf hbound).2.2.2.2.2.2 k id

/-- Claim C5 counterexample: the claim quantifies over any sequence of
registry calls, but after `cex5ops` — `lookup_or_enqueue` with key `7`
(enqueueing job 1), then `job_completed` for the unrelated id 9 passing
key `7` — key `7` is absent from the key-to-id map even though its job
(id 1) was enqueued via `lookup_or_enqueue` and never completed, so the
claimed equivalence fails at key `7`, id `1`. -/
theorem claim5_counterexample :
    ((runEv (Jobs.mkDefault Nat) [] cex5ops).map fun p =>
        (lookupA p.1.keyed_jobs 7,
         decide (Ev.enq ⟨1⟩ (some 7) true ∈ p.2),
         decide (∀ e ∈ p.2, isComplFor (⟨1⟩ : Id) e = false)))
      = some (none, true, true) := by
  decide

/-- Claim C5 witness: the amended invariant applied to the one-call trace
`lookup_or_enqueue` with key `3`, showing key `3` mapped to the job it
enqueued. -/
theorem claim5_witness :
    lookupA
      ({ last_task_id := 1
         result_senders := [(⟨1⟩, [⟨⟨0, 0⟩, some 0⟩])]
         keyed_jobs := [(3, ⟨1⟩)]
         queue := [⟨⟨1⟩, some 3, ⟨0, 0⟩⟩]
         externalReceivers := 0
         nextSenderId := 1
         nextArcId := 0 } : Jobs Nat).keyed_jobs 3 = some ⟨1⟩ :=
  (claim5_amended [Op.lookupOrEnqueueOp ⟨0, 0⟩ 3]
      { last_task_id := 1
        result_senders := [(⟨1⟩, [⟨⟨0, 0⟩, some 0⟩])]
        keyed_jobs := [(3, ⟨1⟩)]
        queue := [⟨⟨1⟩, some 3, ⟨0, 0⟩⟩]
        externalReceivers := 0
        nextSenderId := 1
        nextArcId := 0 }
      [Ev.enq ⟨1⟩ (some 3) true]
      (by decide) (by decide) (by decide) 3 ⟨1⟩).mpr ⟨by decide, by decide⟩

end BonsaiJobs
